import Mathlib

/-!
# Verification of the getflake CLI (src/cli.rs)

Shallow embedding of the placeholder-substitution engine and its
collaborators from `src/cli.rs`, together with theorems settling the
frozen claims about the program.

Conventions:
* Rust `String` / `&str` values are embedded as `List Char`.
* Rust `str::replace(token, rep)` (leftmost, non-overlapping, single
  pass, no recursive rewriting) is embedded as `listReplace`.  The
  recursion consumes `token.length` characters at each match, which is
  not structural, so the executable definition threads a fuel argument
  that the wrapper instantiates with the length of the scanned string;
  this keeps every definition kernel-computable.
* Fallible operations are embedded with `Except` / `Option`; Rust
  panics (`unwrap` / `expect` / index out of bounds) are embedded as a
  dedicated `panicked`-style constructor, distinct from typed errors.
-/

namespace Getflake

/-- The fixed placeholder token `"project_name"` (src/cli.rs, passes 1 and 2). -/
def placeholder : List Char := "project_name".data

/-- Fuel-driven core of Rust `str::replace`: scan left to right; at each
position where `tok` (assumed nonempty) is a literal prefix of the rest,
emit `rep` and resume after the matched characters; otherwise keep one
character.  The fuel only serves termination: `listReplace` supplies
`s.length`, which is always sufficient. -/
def replaceFuel (tok rep : List Char) : Nat → List Char → List Char
  | 0, s => s
  | _ + 1, [] => []
  | f + 1, c :: cs =>
    if tok ≠ [] ∧ tok <+: (c :: cs) then
      rep ++ replaceFuel tok rep f ((c :: cs).drop tok.length)
    else
      c :: replaceFuel tok rep f cs

/-- Embedding of Rust `s.replace(tok, rep)`: all non-overlapping literal
occurrences of `tok` replaced by `rep`, in one pass, never rescanning the
inserted replacement. -/
def listReplace (tok rep s : List Char) : List Char :=
  replaceFuel tok rep s.length s

/-- Fuel-driven count of the non-overlapping occurrences found by the same
left-to-right scan as `replaceFuel`. -/
def countFuel (tok : List Char) : Nat → List Char → Nat
  | 0, _ => 0
  | _ + 1, [] => 0
  | f + 1, c :: cs =>
    if tok ≠ [] ∧ tok <+: (c :: cs) then
      countFuel tok f ((c :: cs).drop tok.length) + 1
    else
      countFuel tok f cs

/-- Number of non-overlapping occurrences of `tok` in `s`, counted by the
same scan that `listReplace` performs. -/
def countOcc (tok s : List Char) : Nat :=
  countFuel tok s.length s

/-- Side condition under which the single-pass replacement cannot
re-introduce the token: the token is not inside the replacement, the
replacement is not inside the token, and no nonempty edge of the
replacement overlaps an edge of the token. -/
def OverlapFree (tok rep : List Char) : Prop :=
  (¬ tok <:+: rep) ∧ (¬ rep <:+: tok) ∧
  (∀ a ∈ rep.tails, a ≠ [] → ¬ a <+: tok) ∧
  (∀ p ∈ rep.inits, p ≠ [] → ¬ p <:+ tok)

instance (tok rep : List Char) : Decidable (OverlapFree tok rep) := by
  unfold OverlapFree; infer_instance

-- A match consumes at least one character, so recursion on fuel stays fed.
theorem dropLenLe (c : Char) (cs tok : List Char) (h : tok ≠ []) :
    ((c :: cs).drop tok.length).length ≤ cs.length := by
  rw [List.length_drop]
  cases tok with
  | nil => exact absurd rfl h
  | cons t ts => simp [List.length_cons]

theorem replaceFuelCongr (tok rep : List Char) :
    ∀ f₁ f₂ s, s.length ≤ f₁ → s.length ≤ f₂ →
      replaceFuel tok rep f₁ s = replaceFuel tok rep f₂ s := by
  intro f₁
  induction f₁ with
  | zero =>
    intro f₂ s h₁ _
    have : s = [] := List.length_eq_zero.mp (Nat.le_zero.mp h₁)
    subst this
    cases f₂ <;> rfl
  | succ f ih =>
    intro f₂ s h₁ h₂
    cases s with
    | nil => cases f₂ <;> rfl
    | cons c cs =>
      cases f₂ with
      | zero => simp at h₂
      | succ f₂' =>
        simp only [replaceFuel]
        by_cases hm : tok ≠ [] ∧ tok <+: (c :: cs)
        · rw [if_pos hm, if_pos hm]
          have hd := dropLenLe c cs tok hm.1
          rw [ih f₂' _ (le_trans hd (Nat.le_of_succ_le_succ h₁))
            (le_trans hd (Nat.le_of_succ_le_succ h₂))]
        · rw [if_neg hm, if_neg hm]
          rw [ih f₂' cs (Nat.le_of_succ_le_succ h₁) (Nat.le_of_succ_le_succ h₂)]

theorem countFuelCongr (tok : List Char) :
    ∀ f₁ f₂ s, s.length ≤ f₁ → s.length ≤ f₂ →
      countFuel tok f₁ s = countFuel tok f₂ s := by
  intro f₁
  induction f₁ with
  | zero =>
    intro f₂ s h₁ _
    have : s = [] := List.length_eq_zero.mp (Nat.le_zero.mp h₁)
    subst this
    cases f₂ <;> rfl
  | succ f ih =>
    intro f₂ s h₁ h₂
    cases s with
    | nil => cases f₂ <;> rfl
    | cons c cs =>
      cases f₂ with
      | zero => simp at h₂
      | succ f₂' =>
        simp only [countFuel]
        by_cases hm : tok ≠ [] ∧ tok <+: (c :: cs)
        · rw [if_pos hm, if_pos hm]
          have hd := dropLenLe c cs tok hm.1
          rw [ih f₂' _ (le_trans hd (Nat.le_of_succ_le_succ h₁))
            (le_trans hd (Nat.le_of_succ_le_succ h₂))]
        · rw [if_neg hm, if_neg hm]
          rw [ih f₂' cs (Nat.le_of_succ_le_succ h₁) (Nat.le_of_succ_le_succ h₂)]

/-! ### Decomposition lemmas for prefixes, suffixes and factors -/

theorem frontAppendCases {α : Type} {t a b : List α} (h : t <+: a ++ b) :
    t <+: a ∨ ∃ t', t = a ++ t' ∧ t' <+: b := by
  induction a generalizing t with
  | nil => exact Or.inr ⟨t, rfl, h⟩
  | cons x xs ih =>
    cases t with
    | nil => exact Or.inl List.nil_prefix
    | cons y ys =>
      obtain ⟨r, hr⟩ := h
      rw [List.cons_append, List.cons_append] at hr
      injection hr with h1 h2
      subst h1
      rcases ih ⟨r, h2⟩ with h' | ⟨t', ht', hb⟩
      · obtain ⟨r', hr'⟩ := h'
        exact Or.inl ⟨r', by rw [List.cons_append, hr']⟩
      · exact Or.inr ⟨t', by rw [ht', List.cons_append], hb⟩

theorem backAppendCases {α : Type} {u a b : List α} (h : u <:+ a ++ b) :
    u <:+ b ∨ ∃ w, w <:+ a ∧ u = w ++ b := by
  induction a with
  | nil => exact Or.inl h
  | cons x xs ih =>
    rw [List.cons_append, List.suffix_cons_iff] at h
    rcases h with h | h
    · exact Or.inr ⟨x :: xs, List.suffix_rfl, h⟩
    · rcases ih h with h' | ⟨w, hw, hu⟩
      · exact Or.inl h'
      · exact Or.inr ⟨w, hw.trans (List.suffix_cons x xs), hu⟩

theorem midConsCases {α : Type} {t m : List α} {c : α} (h : t <:+: c :: m) :
    t <+: (c :: m) ∨ t <:+: m := by
  obtain ⟨l, r, hl⟩ := h
  cases l with
  | nil => exact Or.inl ⟨r, by simpa using hl⟩
  | cons x xs =>
    rw [List.cons_append, List.cons_append] at hl
    injection hl with _ h2
    exact Or.inr ⟨xs, r, h2⟩

theorem midToBackFront {α : Type} {t m : List α} (h : t <:+: m) :
    ∃ u, u <:+ m ∧ t <+: u := by
  obtain ⟨l, r, hl⟩ := h
  exact ⟨t ++ r, ⟨l, by rw [← hl, List.append_assoc]⟩, ⟨r, rfl⟩⟩

theorem frontBackMid {α : Type} {t u v : List α} (h₁ : t <+: u) (h₂ : u <:+ v) :
    t <:+: v := by
  obtain ⟨r, hr⟩ := h₁
  obtain ⟨w, hw⟩ := h₂
  exact ⟨w, r, by rw [← hw, ← hr, List.append_assoc]⟩

theorem midOfBack {α : Type} {t u v : List α} (h₁ : t <:+: u) (h₂ : u <:+ v) :
    t <:+: v := by
  obtain ⟨l, r, hl⟩ := h₁
  obtain ⟨w, hw⟩ := h₂
  exact ⟨w ++ l, r, by rw [← hw, ← hl]; simp [List.append_assoc]⟩

theorem backOfTail {α : Type} {t m : List α} {c : α} (h : t <:+ m) : t <:+ c :: m := by
  obtain ⟨w, hw⟩ := h
  exact ⟨c :: w, by rw [← hw, List.cons_append]⟩

theorem notMidNil {tok : List Char} (h : tok ≠ []) : ¬ tok <:+: ([] : List Char) := by
  intro ⟨l, r, hl⟩
  have := List.append_eq_nil.mp hl
  exact h (List.append_eq_nil.mp this.1).2

/-! ### The length law of the single-pass replacement -/

theorem replaceFuelLength (tok rep : List Char) :
    ∀ f s, s.length ≤ f →
      (replaceFuel tok rep f s).length + countFuel tok f s * tok.length
        = s.length + countFuel tok f s * rep.length := by
  intro f
  induction f with
  | zero =>
    intro s h
    have : s = [] := List.length_eq_zero.mp (Nat.le_zero.mp h)
    subst this; simp [replaceFuel, countFuel]
  | succ f ih =>
    intro s h
    cases s with
    | nil => simp [replaceFuel, countFuel]
    | cons c cs =>
      simp only [replaceFuel, countFuel]
      by_cases hm : tok ≠ [] ∧ tok <+: (c :: cs)
      · rw [if_pos hm, if_pos hm]
        have hd := dropLenLe c cs tok hm.1
        have ih' := ih _ (le_trans hd (Nat.le_of_succ_le_succ h))
        have hlen : tok.length + ((c :: cs).drop tok.length).length = (c :: cs).length := by
          rw [List.length_drop]
          have : tok.length ≤ (c :: cs).length := hm.2.length_le
          omega
        simp only [List.length_append, List.length_cons, Nat.add_mul, Nat.one_mul] at *
        omega
      · rw [if_neg hm, if_neg hm]
        have ih' := ih cs (Nat.le_of_succ_le_succ h)
        simp only [List.length_cons]
        omega

/-- A string without any occurrence of the token is returned unchanged. -/
theorem replaceFuelId (tok rep : List Char) :
    ∀ f s, s.length ≤ f → ¬ tok <:+: s → replaceFuel tok rep f s = s := by
  intro f
  induction f with
  | zero =>
    intro s h _
    have : s = [] := List.length_eq_zero.mp (Nat.le_zero.mp h)
    subst this; rfl
  | succ f ih =>
    intro s h hno
    cases s with
    | nil => rfl
    | cons c cs =>
      simp only [replaceFuel]
      rw [if_neg, ih cs (Nat.le_of_succ_le_succ h)]
      · intro hmid
        exact hno (midOfBack hmid (List.suffix_cons c cs))
      · rintro ⟨_, hp⟩
        exact hno (frontBackMid hp List.suffix_rfl)

/-- The scan finds no occurrence exactly when the token is not a factor. -/
theorem countFuelZeroIff (tok : List Char) (htok : tok ≠ []) :
    ∀ f s, s.length ≤ f → (countFuel tok f s = 0 ↔ ¬ tok <:+: s) := by
  intro f
  induction f with
  | zero =>
    intro s h
    have : s = [] := List.length_eq_zero.mp (Nat.le_zero.mp h)
    subst this
    simp [countFuel, notMidNil htok]
  | succ f ih =>
    intro s h
    cases s with
    | nil => simp [countFuel, notMidNil htok]
    | cons c cs =>
      simp only [countFuel]
      by_cases hm : tok ≠ [] ∧ tok <+: (c :: cs)
      · rw [if_pos hm]
        constructor
        · intro hz; omega
        · intro hno
          exact absurd (frontBackMid hm.2 List.suffix_rfl) hno
      · rw [if_neg hm]
        rw [ih cs (Nat.le_of_succ_le_succ h)]
        constructor
        · intro hno hmid
          rcases midConsCases hmid with hp | hmid'
          · exact hm ⟨htok, hp⟩
          · exact hno hmid'
        · intro hno hmid
          exact hno (midOfBack hmid (List.suffix_cons c cs))

/-! ### Under `OverlapFree`, the replacement never re-creates the token -/

/-- Transfer lemma: a nonempty suffix of the token that survives as a
leading segment of the replaced string must already lead the original
string.  This is what rules out occurrences forged at the boundary
between an untouched character and later rewritten text. -/
theorem replaceSuffixTransfer (tok rep : List Char) (hof : OverlapFree tok rep) :
    ∀ f s t, s.length ≤ f → t ≠ [] → t <:+ tok →
      t <+: replaceFuel tok rep f s → t <+: s := by
  intro f
  induction f with
  | zero =>
    intro s t hf htne _ hpre
    have hs : s = [] := List.length_eq_zero.mp (Nat.le_zero.mp hf)
    subst hs
    obtain ⟨r, hr⟩ := hpre
    exact absurd (List.append_eq_nil.mp hr).1 htne
  | succ f ih =>
    intro s t hf htne hsuf hpre
    cases s with
    | nil =>
      obtain ⟨r, hr⟩ := hpre
      exact absurd (List.append_eq_nil.mp hr).1 htne
    | cons c cs =>
      simp only [replaceFuel] at hpre
      by_cases hm : tok ≠ [] ∧ tok <+: (c :: cs)
      · rw [if_pos hm] at hpre
        rcases frontAppendCases hpre with h1 | ⟨t', ht', _⟩
        · exact absurd hsuf (hof.2.2.2 t ((List.mem_inits _ _).mpr h1) htne)
        · obtain ⟨w, hw⟩ := hsuf
          have : rep <:+: tok := ⟨w, t', by rw [← hw, ht', List.append_assoc]⟩
          exact absurd this hof.2.1
      · rw [if_neg hm] at hpre
        cases t with
        | nil => exact absurd rfl htne
        | cons t0 t1 =>
          obtain ⟨r, hr⟩ := hpre
          rw [List.cons_append] at hr
          injection hr with h1 h2
          subst h1
          by_cases ht1 : t1 = []
          · subst ht1
            exact ⟨cs, rfl⟩
          · have ht1suf : t1 <:+ tok := by
              obtain ⟨w, hw⟩ := hsuf
              exact ⟨w ++ [t0], by rw [← hw]; simp⟩
            have hrec := ih cs t1 (Nat.le_of_succ_le_succ hf) ht1 ht1suf ⟨r, h2⟩
            obtain ⟨r', hr'⟩ := hrec
            exact ⟨r', by rw [List.cons_append, hr']⟩

/-- Main lemma: with an overlap-free replacement the rewritten string
contains no occurrence of the token at all. -/
theorem replaceNoMid (tok rep : List Char) (htok : tok ≠ [])
    (hof : OverlapFree tok rep) :
    ∀ f s, s.length ≤ f → ¬ tok <:+: replaceFuel tok rep f s := by
  intro f
  induction f with
  | zero =>
    intro s hf
    have hs : s = [] := List.length_eq_zero.mp (Nat.le_zero.mp hf)
    subst hs
    exact notMidNil htok
  | succ f ih =>
    intro s hf
    cases s with
    | nil => exact notMidNil htok
    | cons c cs =>
      simp only [replaceFuel]
      by_cases hm : tok ≠ [] ∧ tok <+: (c :: cs)
      · rw [if_pos hm]
        intro hmid
        obtain ⟨u, hu, htu⟩ := midToBackFront hmid
        have hfd := dropLenLe c cs tok hm.1
        rcases backAppendCases hu with h1 | ⟨a, ha, hua⟩
        · exact ih _ (le_trans hfd (Nat.le_of_succ_le_succ hf)) (frontBackMid htu h1)
        · subst hua
          rcases frontAppendCases htu with h2 | ⟨tok', htok', h3⟩
          · exact hof.1 (frontBackMid h2 ha)
          · by_cases hane : a = []
            · subst hane
              rw [List.nil_append] at htok'
              subst htok'
              exact ih _ (le_trans hfd (Nat.le_of_succ_le_succ hf)) (frontBackMid h3 List.suffix_rfl)
            · by_cases htne : tok' = []
              · subst htne
                rw [List.append_nil] at htok'
                subst htok'
                obtain ⟨w, hw⟩ := ha
                exact hof.1 ⟨w, [], by rw [List.append_nil, hw]⟩
              · exact hof.2.2.1 a ((List.mem_tails _ _).mpr ha) hane ⟨tok', htok'.symm⟩
      · rw [if_neg hm]
        intro hmid
        rcases midConsCases hmid with hp | hmid'
        · obtain ⟨c0, tok1, htk⟩ : ∃ c0 tok1, tok = c0 :: tok1 := by
            cases tok with
            | nil => exact absurd rfl htok
            | cons a b => exact ⟨a, b, rfl⟩
          subst htk
          obtain ⟨r, hr⟩ := hp
          rw [List.cons_append] at hr
          injection hr with h1 h2
          subst h1
          by_cases ht1 : tok1 = []
          · subst ht1
            exact hm ⟨htok, ⟨cs, rfl⟩⟩
          · have ht1suf : tok1 <:+ (c0 :: tok1) := ⟨[c0], rfl⟩
            have hrec := replaceSuffixTransfer _ rep hof f cs tok1
              (Nat.le_of_succ_le_succ hf) ht1 ht1suf ⟨r, h2⟩
            obtain ⟨r', hr'⟩ := hrec
            exact hm ⟨htok, ⟨r', by rw [List.cons_append, hr']⟩⟩
        · exact ih cs (Nat.le_of_succ_le_succ hf) hmid'

/-! ### Wrappers on `listReplace` / `countOcc` -/

theorem listReplaceLength (tok rep s : List Char) :
    (listReplace tok rep s).length + countOcc tok s * tok.length
      = s.length + countOcc tok s * rep.length :=
  replaceFuelLength tok rep s.length s le_rfl

theorem listReplaceId (tok rep s : List Char) (h : ¬ tok <:+: s) :
    listReplace tok rep s = s :=
  replaceFuelId tok rep s.length s le_rfl h

theorem listReplaceNoMid (tok rep : List Char) (htok : tok ≠ [])
    (hof : OverlapFree tok rep) (s : List Char) :
    ¬ tok <:+: listReplace tok rep s :=
  replaceNoMid tok rep htok hof s.length s le_rfl

theorem countOccZeroIff (tok s : List Char) (htok : tok ≠ []) :
    countOcc tok s = 0 ↔ ¬ tok <:+: s :=
  countFuelZeroIff tok htok s.length s le_rfl

theorem countOccReplaceZero (tok rep : List Char) (htok : tok ≠ [])
    (hof : OverlapFree tok rep) (s : List Char) :
    countOcc tok (listReplace tok rep s) = 0 :=
  (countOccZeroIff tok _ htok).mpr (listReplaceNoMid tok rep htok hof s)

theorem placeholderNe : placeholder ≠ [] := by decide

/-! ### Claim C1 -/

/-- Claim C1, counterexample.  The claim asserts that after Pass 1 a file
that contained the token contains `0` occurrences of it.  Pass 1 is
`content.replace("project_name", &self.project_name)` (src/cli.rs:274),
and the replacement is the user-chosen project name, which may itself
contain the token: with project name `"the_project_name"`, a file whose
content is exactly `"project_name"` (k = 1) still contains one occurrence
of the token after the rewrite, not `0`. -/
theorem spec_c1_cex :
    countOcc placeholder ("project_name".data) = 1 ∧
    countOcc placeholder
      (listReplace placeholder ("the_project_name".data) ("project_name".data)) = 1 := by
  decide

/-- Claim C1, amended.  For every file whose content contains `k ≥ 1`
occurrences of the token, Pass 1 replaces all non-overlapping occurrences
verbatim (`listReplace` is the embedding of the `str::replace` call), the
content length changes by exactly `k * (len(replacement) - len(token))`,
and — provided the replacement cannot re-introduce the token (it does not
contain the token, is not contained in it, and shares no boundary overlap
with it, as stated by `OverlapFree`) — the rewritten content contains `0`
occurrences of the token. -/
theorem spec_c1 (rep s : List Char) (k : Nat) (hof : OverlapFree placeholder rep)
    (hk : countOcc placeholder s = k) (_hpos : 1 ≤ k) :
    countOcc placeholder (listReplace placeholder rep s) = 0 ∧
    ((listReplace placeholder rep s).length : Int)
      = (s.length : Int) + (k : Int) * ((rep.length : Int) - (placeholder.length : Int)) := by
  refine ⟨countOccReplaceZero placeholder rep placeholderNe hof s, ?_⟩
  have hlen := listReplaceLength placeholder rep s
  rw [hk] at hlen
  have hcast : ((listReplace placeholder rep s).length : Int)
      + (k : Int) * (placeholder.length : Int)
      = (s.length : Int) + (k : Int) * (rep.length : Int) := by
    exact_mod_cast hlen
  ring_nf
  ring_nf at hcast
  linarith [hcast]

/-- Witness for C1: the spec's own scenario, content `"Hello, project_name!"`
with replacement `"acme"` (k = 1). -/
theorem spec_c1_witness :
    countOcc placeholder
      (listReplace placeholder ("acme".data) ("Hello, project_name!".data)) = 0 ∧
    ((listReplace placeholder ("acme".data) ("Hello, project_name!".data)).length : Int)
      = (("Hello, project_name!".data).length : Int)
        + (1 : Int) * ((("acme".data).length : Int) - (placeholder.length : Int)) :=
  spec_c1 ("acme".data) ("Hello, project_name!".data) 1 (by decide) (by decide) (by decide)

/-! ### Template catalog: `fetch_templates` (src/cli.rs:62-113) -/

/-- Embedding of `struct Template { name: String, print_str: String }`. -/
structure Template where
  name : List Char
  print_str : List Char
deriving DecidableEq

/-- Description synthesized for the `default` registry key (src/cli.rs:86). -/
def emptyBlank : List Char := "Empty/Blank".data

/-- The fixed text stripped from every other description (src/cli.rs:93). -/
def templateDescHead : List Char := "Nix Flake Template for ".data

/-- Rust `str::strip_prefix` embedded: `some` of the remainder when `pre`
leads `s`, `none` otherwise. -/
def stripHead (pre s : List Char) : Option (List Char) :=
  if pre <+: s then some (s.drop pre.length) else none

/-- The catalog-building loop of `fetch_templates` (src/cli.rs:84-101):
walk the parsed object's `(key, description-field)` entries in iteration
order.  The `default` key gets the synthesized description `"Empty/Blank"`
without reading the registry value; every other entry must carry a string
description starting with `"Nix Flake Template for "`, which is removed by
`.strip_prefix(...).unwrap()`.  The result `none` embeds a panic of the
whole function: a missing or non-string `description` field
(`.get("description").unwrap()` / `.as_str().unwrap()`, embedded as the
entry's second component being `none`) or an absent description head. -/
def buildTemplates : List (List Char × Option (List Char)) → Option (List Template)
  | [] => some []
  | (key, desc) :: rest =>
    match (if key = "default".data then some emptyBlank
           else desc.bind (stripHead templateDescHead)), buildTemplates rest with
    | some d, some ts => some (⟨key, d⟩ :: ts)
    | _, _ => none

/-- The dedup step (src/cli.rs:102-104): `duplicate_descriptions.insert`
returns `true` exactly on first insertion and `Vec::retain` keeps those
templates in order; `seen` is the set of descriptions inserted so far. -/
def retainFirstSeen : List Template → List (List Char) → List Template
  | [], _ => []
  | t :: ts, seen =>
    if t.print_str ∈ seen then retainFirstSeen ts seen
    else t :: retainFirstSeen ts (t.print_str :: seen)

inductive FetchResult where
  | ok (templates : List Template)
  | panicked
  | fetchFailed
deriving DecidableEq

/-- Embedding of `fetch_templates` (src/cli.rs:62-113): when the `nix flake show`
subprocess cannot be invoked, the typed error `"Failed to fetch
templates"` is returned (`fetchFailed`); otherwise the registry entries
are turned into templates (panicking on a malformed description) and
deduplicated by description. -/
def fetch_templates (invokeOk : Bool)
    (entries : List (List Char × Option (List Char))) : FetchResult :=
  if invokeOk then
    match buildTemplates entries with
    | some ts => .ok (retainFirstSeen ts [])
    | none => .panicked
  else .fetchFailed

theorem retainSub (ts : List Template) :
    ∀ seen, List.Sublist (retainFirstSeen ts seen) ts := by
  induction ts with
  | nil => intro seen; exact List.Sublist.refl []
  | cons t ts ih =>
    intro seen
    simp only [retainFirstSeen]
    by_cases h : t.print_str ∈ seen
    · rw [if_pos h]
      exact (ih seen).trans (List.sublist_cons_self t ts)
    · rw [if_neg h]
      exact (ih (t.print_str :: seen)).cons₂ t

theorem retainNotSeen (ts : List Template) :
    ∀ seen u, u ∈ retainFirstSeen ts seen → u.print_str ∉ seen := by
  induction ts with
  | nil => intro seen u hu; simp [retainFirstSeen] at hu
  | cons t ts ih =>
    intro seen u hu
    simp only [retainFirstSeen] at hu
    by_cases h : t.print_str ∈ seen
    · rw [if_pos h] at hu
      exact ih seen u hu
    · rw [if_neg h] at hu
      rcases List.mem_cons.mp hu with rfl | hu'
      · exact h
      · intro hmem
        exact ih _ u hu' (List.mem_cons_of_mem _ hmem)

theorem retainPairwise (ts : List Template) :
    ∀ seen, List.Pairwise (fun a b => a.print_str ≠ b.print_str)
      (retainFirstSeen ts seen) := by
  induction ts with
  | nil => intro seen; exact List.Pairwise.nil
  | cons t ts ih =>
    intro seen
    simp only [retainFirstSeen]
    by_cases h : t.print_str ∈ seen
    · rw [if_pos h]; exact ih seen
    · rw [if_neg h]
      refine List.Pairwise.cons ?_ (ih (t.print_str :: seen))
      intro b hb heq
      exact retainNotSeen ts _ b hb (heq ▸ List.mem_cons_self _ _)

theorem retainCongr (ts : List Template) :
    ∀ s₁ s₂, (∀ x, x ∈ s₁ ↔ x ∈ s₂) →
      retainFirstSeen ts s₁ = retainFirstSeen ts s₂ := by
  induction ts with
  | nil => intro s₁ s₂ _; rfl
  | cons t ts ih =>
    intro s₁ s₂ hiff
    simp only [retainFirstSeen]
    by_cases h : t.print_str ∈ s₁
    · rw [if_pos h, if_pos ((hiff _).mp h)]
      exact ih s₁ s₂ hiff
    · rw [if_neg h, if_neg (fun hc => h ((hiff _).mpr hc))]
      refine congrArg _ (ih _ _ ?_)
      intro x
      simp only [List.mem_cons]
      exact or_congr Iff.rfl (hiff x)

theorem retainSkip (ts : List Template) :
    ∀ d seen, retainFirstSeen ts (d :: seen)
      = retainFirstSeen (ts.filter (fun u => decide (u.print_str ≠ d))) seen := by
  induction ts with
  | nil => intro d seen; rfl
  | cons t ts ih =>
    intro d seen
    by_cases hd : t.print_str = d
    · have hfc : (t :: ts).filter (fun u => decide (u.print_str ≠ d))
          = ts.filter (fun u => decide (u.print_str ≠ d)) := by
        simp [List.filter_cons, hd]
      have hmem : t.print_str ∈ d :: seen := by
        rw [hd]; exact List.mem_cons_self _ _
      rw [hfc]
      simp only [retainFirstSeen, if_pos hmem]
      exact ih d seen
    · have hfc : (t :: ts).filter (fun u => decide (u.print_str ≠ d))
          = t :: ts.filter (fun u => decide (u.print_str ≠ d)) := by
        simp [List.filter_cons, hd]
      rw [hfc]
      by_cases hs : t.print_str ∈ seen
      · have hmem : t.print_str ∈ d :: seen := List.mem_cons_of_mem _ hs
        simp only [retainFirstSeen, if_pos hmem, if_pos hs]
        exact ih d seen
      · have hns : t.print_str ∉ d :: seen := by
          intro hc
          rcases List.mem_cons.mp hc with hc' | hc'
          · exact hd hc'
          · exact hs hc'
        simp only [retainFirstSeen, if_neg hns, if_neg hs]
        refine congrArg _ ?_
        rw [retainCongr ts (t.print_str :: d :: seen) (d :: t.print_str :: seen)
          (by intro x; simp [List.mem_cons]; tauto)]
        exact ih d (t.print_str :: seen)

/-! ### Claim C5 -/

/-- Claim C5, confirmed.  The dedup of `fetch_templates`
(src/cli.rs:102-104) retains no two templates with the same description
(`Pairwise`), keeps retained templates in their input order (the result is
a sublist of the input), and for any head template `t` the result keeps
`t` and continues on the remaining templates with every later
same-description template dropped. -/
theorem spec_c5 (ts : List Template) (t : Template) :
    List.Pairwise (fun a b => a.print_str ≠ b.print_str) (retainFirstSeen ts []) ∧
    List.Sublist (retainFirstSeen ts []) ts ∧
    retainFirstSeen (t :: ts) []
      = t :: retainFirstSeen (ts.filter (fun u => decide (u.print_str ≠ t.print_str))) [] := by
  refine ⟨retainPairwise ts [], retainSub ts [], ?_⟩
  simp only [retainFirstSeen, if_neg (List.not_mem_nil t.print_str)]
  exact congrArg _ (retainSkip ts t.print_str [])

/-! ### Claim C7 -/

/-- Claim C7, counterexample.  The claim says a registry description
missing the fixed `"Nix Flake Template for "` head makes the fetch fail
with a typed `MalformedCatalogError` "rather than succeeding or crashing
untypedly"; the code instead panics at
`.strip_prefix("Nix Flake Template for ").unwrap()` (src/cli.rs:93-94).
With one non-default entry described as `"Rust template"` the fetch
crashes (`panicked`), which is not the typed invocation failure
(`fetchFailed`, the only typed error this function produces). -/
theorem spec_c7_cex :
    fetch_templates true [("rust".data, some ("Rust template".data))] = .panicked := by
  decide

/-- Claim C7, amended.  During the catalog fetch the `default` key is
assigned the synthesized description `"Empty/Blank"` without reading the
registry's description; every other template's description is the
registry string with the head `"Nix Flake Template for "` stripped; and
when that head is absent the fetch crashes with an `unwrap` panic instead
of returning a typed `MalformedCatalogError` (no such typed error exists
in the code). -/
theorem spec_c7 (dflt : Option (List Char)) (key d : List Char)
    (rest : List (List Char × Option (List Char))) (hk : key ≠ "default".data) :
    buildTemplates (("default".data, dflt) :: rest)
      = (buildTemplates rest).map (fun ts => ⟨"default".data, emptyBlank⟩ :: ts) ∧
    buildTemplates ((key, some (templateDescHead ++ d)) :: rest)
      = (buildTemplates rest).map (fun ts => ⟨key, d⟩ :: ts) ∧
    (¬ templateDescHead <+: d → buildTemplates ((key, some d) :: rest) = none) ∧
    (∀ es, buildTemplates es = none → fetch_templates true es = .panicked) := by
  refine ⟨?_, ?_, ?_, ?_⟩
  · cases hrest : buildTemplates rest <;> simp [buildTemplates, hrest]
  · have hstrip : stripHead templateDescHead (templateDescHead ++ d) = some d := by
      rw [stripHead, if_pos ⟨d, rfl⟩, List.drop_left]
    cases hrest : buildTemplates rest <;>
      simp [buildTemplates, hrest, if_neg hk, hstrip, Option.some_bind]
  · intro hnp
    have hstrip : stripHead templateDescHead d = none := by
      rw [stripHead, if_neg hnp]
    cases hrest : buildTemplates rest <;>
      simp [buildTemplates, hrest, if_neg hk, hstrip, Option.some_bind]
  · intro es hes
    rw [fetch_templates, if_pos rfl, hes]

/-- Witness for C7: a catalog with the `default` entry, a well-formed
`"rust"` entry and a malformed `"zig"` entry. -/
theorem spec_c7_witness :
    buildTemplates (("default".data, (none : Option (List Char))) :: [])
      = (buildTemplates []).map (fun ts => ⟨"default".data, emptyBlank⟩ :: ts) ∧
    buildTemplates (("rust".data, some (templateDescHead ++ "Rust".data)) :: [])
      = (buildTemplates []).map (fun ts => ⟨"rust".data, "Rust".data⟩ :: ts) ∧
    (¬ templateDescHead <+: ("Rust".data) →
        buildTemplates (("rust".data, some ("Rust".data)) :: []) = none) ∧
    (∀ es, buildTemplates es = none → fetch_templates true es = .panicked) :=
  spec_c7 none "rust".data "Rust".data [] (by decide)

/-! ### Claim C6 -/

inductive TemplateChoice where
  | selected (name : List Char)
  | panicked
deriving DecidableEq

/-- Rust `str::parse::<usize>` on an already-trimmed line: succeeds on a
nonempty all-digit string (an optional leading `+` sign and usize overflow
are not modelled; every input considered below is a small digit string or
an identifier). -/
def parseUsize (s : List Char) : Option Nat :=
  if s ≠ [] ∧ s.all (fun c => c.isDigit) then
    some (s.foldl (fun n c => n * 10 + (c.toNat - 48)) 0)
  else none

/-- Embedding of `get_template` (src/cli.rs:192-210): the trimmed answer is parsed as a
number with `.parse().expect(...)` — any non-numeric answer, in particular
a template identifier, panics — and the number indexes
`templates[input - 1]`: `0` underflows the usize subtraction and an
out-of-range index panics as well. -/
def get_template (templates : List Template) (input : List Char) : TemplateChoice :=
  match parseUsize input with
  | none => .panicked
  | some n =>
    if n = 0 then .panicked
    else if h : n - 1 < templates.length then
      .selected (templates.get ⟨n - 1, h⟩).name
    else .panicked

/-- Claim C6, failing behaviour.  The prompt printed by `get_template`
says "Pick a number or enter the code for the template", and the claim
says an answer equal to a listed identifier selects that template and a
malformed answer fails with a typed `InvalidInputError`.  In the code the
answer is parsed with `.parse::<usize>().expect(...)`: entering the listed
identifier `"rust"` panics, a valid 1-based index works, and an
out-of-range index panics instead of producing a typed error. -/
theorem spec_c6_bug :
    get_template [⟨"rust".data, "Rust".data⟩] ("rust".data) = .panicked ∧
    get_template [⟨"rust".data, "Rust".data⟩] ("1".data) = .selected ("rust".data) ∧
    get_template [⟨"rust".data, "Rust".data⟩] ("2".data) = .panicked := by
  decide

/-! ### Claim C4 -/

structure CmdOutput where
  status : Nat
deriving DecidableEq

/-- Rust `Command::output()`: `Err` exactly when the process cannot be
spawned; a spawned process that exits with a non-zero status still yields
`Ok`, carrying the status, which the caller must inspect explicitly. -/
def commandOutput (spawnOk : Bool) (exitStatus : Nat) : Except (List Char) CmdOutput :=
  if spawnOk then .ok ⟨exitStatus⟩ else .error ("failed to run nix".data)

inductive MaterializeOutcome where
  | proceeded
  | aborted (msg : List Char)
deriving DecidableEq

/-- The materialize step of `run` (src/cli.rs:141-158): `command.output()?`
propagates only a spawn failure; the `status` of the generator is never
read, the success message is printed and the run continues. -/
def materializeStep (spawnOk : Bool) (exitStatus : Nat) : MaterializeOutcome :=
  match commandOutput spawnOk exitStatus with
  | .ok _ => .proceeded
  | .error e => .aborted e

/-- Claim C4, failing behaviour.  When the external generator exits with
status `1`, the materialize step proceeds as if the project had been
created (printing the success message and running substitution), instead
of aborting with a `MaterializeError`; only a spawn failure aborts. -/
theorem spec_c4_bug :
    materializeStep true 1 = .proceeded ∧
    materializeStep false 0 = .aborted ("failed to run nix".data) := by
  decide

/-! ### The file tree and the substitution engine (`update_project_names`) -/

/-- One file-system entry under the target directory.  `path` is the full
path string exactly as `grep -rl` / `find` print it; the model tree lists
entries in `find`'s pre-order (ancestors before descendants).  `content`
is the file's text (empty for directories).  `readable` embeds whether
`fs::read_to_string` succeeds on the file (`false` for non-UTF-8/binary
or unreadable files); `writable` embeds whether `fs::write` succeeds. -/
structure FsEntry where
  path : List Char
  isDir : Bool := false
  content : List Char := []
  readable : Bool := true
  writable : Bool := true
deriving DecidableEq

abbrev FS := List FsEntry

/-- Base name of a path: the part after the last `'/'`. -/
def baseName : List Char → List Char
  | [] => []
  | c :: cs => if c = '/' ∨ '/' ∈ cs then baseName cs else c :: cs

/-- The files listed by `grep -rl "project_name" <dir>` (src/cli.rs:266-268):
the regular files under the tree whose content contains the token. -/
def grepList (fs : FS) : List (List Char) :=
  (fs.filter (fun e => decide (e.isDir = false ∧ placeholder <:+: e.content))).map
    FsEntry.path

/-- The entries listed by `find <dir> -name "*project_name*"`
(src/cli.rs:293-295): every entry whose base name contains the token. -/
def findList (fs : FS) : List (List Char) :=
  (fs.filter (fun e => decide (placeholder <:+: baseName e.path))).map FsEntry.path

/-- Per-entry outcomes, printed as diagnostics by the code. -/
inductive Outcome where
  | contentReplaced (path : List Char)
  | readFailed (path : List Char)
  | writeFailed (path : List Char)
  | renamed (oldPath newPath : List Char)
  | renameFailed (path : List Char)
deriving DecidableEq

/-- One `fs::write(file, new_content)` at one path. -/
def setContent (fs : FS) (p c : List Char) : FS :=
  fs.map (fun e => if e.path = p then { e with content := c } else e)

/-- One iteration of the content loop (src/cli.rs:271-287): read the file,
re-check that it contains the token, write back the content with the token
replaced; a failed read or write is reported and the loop continues. -/
def pass1Step (rep : List Char) (st : FS × List Outcome) (p : List Char) :
    FS × List Outcome :=
  match st.1.find? (fun e => decide (e.path = p)) with
  | some e =>
    if e.readable then
      if placeholder <:+: e.content then
        if e.writable then
          (setContent st.1 p (listReplace placeholder rep e.content),
           st.2 ++ [Outcome.contentReplaced p])
        else (st.1, st.2 ++ [Outcome.writeFailed p])
      else st
    else (st.1, st.2 ++ [Outcome.readFailed p])
  | none => (st.1, st.2 ++ [Outcome.readFailed p])

def pathExists (fs : FS) (p : List Char) : Bool :=
  fs.any (fun e => decide (e.path = p))

/-- Where `fs::rename oldP newP` sends the path `p`: the entry itself
moves, and everything strictly below a renamed directory moves with it. -/
def movePath (oldP newP p : List Char) : List Char :=
  if p = oldP then newP
  else if (oldP ++ ['/']) <+: p then newP ++ p.drop oldP.length
  else p

def moveEntry (oldP newP : List Char) (e : FsEntry) : FsEntry :=
  { e with path := movePath oldP newP e.path }

/-- One iteration of the rename loop (src/cli.rs:298-308): the new path is
the find-reported path with the token substituted over the whole path
string; `fs::rename` is modelled as succeeding exactly when the (possibly
stale) source path still exists and the destination does not (conservative
for an existing destination, where POSIX rename may overwrite; no input
considered below exercises that case).  A failed rename is reported and
the loop continues. -/
def pass2Step (rep : List Char) (st : FS × List Outcome) (p : List Char) :
    FS × List Outcome :=
  let newP := listReplace placeholder rep p
  if pathExists st.1 p = true ∧ pathExists st.1 newP = false then
    (st.1.map (moveEntry p newP), st.2 ++ [Outcome.renamed p newP])
  else (st.1, st.2 ++ [Outcome.renameFailed p])

/-- Pass 1 of `update_project_names` (src/cli.rs:266-290): run grep once,
then rewrite each listed file in order. -/
def pass1Run (rep : List Char) (fs : FS) : FS × List Outcome :=
  (grepList fs).foldl (pass1Step rep) (fs, [])

/-- Pass 2 of `update_project_names` (src/cli.rs:293-311): run find once
on the tree as pass 1 left it, then rename each listed path in order. -/
def pass2Run (rep : List Char) (st : FS × List Outcome) : FS × List Outcome :=
  (findList st.1).foldl (pass2Step rep) st

/-- Both passes in order: the whole substitution engine. -/
def substituteRun (rep : List Char) (fs : FS) : FS × List Outcome :=
  pass2Run rep (pass1Run rep fs)

/-- Embedding of `update_project_names` (src/cli.rs:259-313).  `grepOk` / `findOk` say
whether the external `grep` / `find` processes can be invoked at all; when
one cannot, its whole pass is skipped with only a diagnostic printed.  The
function always returns `Ok(())`: no per-item failure is propagated. -/
def update_project_names (grepOk findOk : Bool) (rep : List Char) (fs : FS) :
    Except (List Char) (FS × List Outcome) :=
  let st1 := if grepOk then pass1Run rep fs else (fs, [])
  let st2 := if findOk then pass2Run rep st1 else st1
  .ok st2

theorem moveEntryContent (o n : List Char) (e : FsEntry) :
    (moveEntry o n e).content = e.content := rfl

theorem moveEntryPath (o n : List Char) (e : FsEntry) :
    (moveEntry o n e).path = movePath o n e.path := rfl

/-- The rename pass never touches file contents. -/
theorem pass2FoldContents (rep : List Char) :
    ∀ (ms : List (List Char)) (st : FS × List Outcome),
      ((ms.foldl (pass2Step rep) st).1).map FsEntry.content
        = st.1.map FsEntry.content := by
  intro ms
  induction ms with
  | nil => intro st; rfl
  | cons m ms ih =>
    intro st
    rw [List.foldl_cons, ih]
    simp only [pass2Step]
    split
    · simp [List.map_map, moveEntryContent]
    · rfl

/-- Every path processed by the rename pass yields exactly one outcome. -/
theorem pass2FoldOutsLen (rep : List Char) :
    ∀ (ms : List (List Char)) (st : FS × List Outcome),
      ((ms.foldl (pass2Step rep) st).2).length = st.2.length + ms.length := by
  intro ms
  induction ms with
  | nil => intro st; simp
  | cons m ms ih =>
    intro st
    rw [List.foldl_cons, ih]
    simp only [pass2Step]
    split <;> simp [List.length_append] <;> omega

/-! ### Characterization of pass 1 -/

/-- The outcome the content loop reports for the (grep-listed, hence
token-containing) file at `p`. -/
def pass1Outcome (fs : FS) (p : List Char) : Outcome :=
  match fs.find? (fun e => decide (e.path = p)) with
  | some e =>
    if e.readable then
      (if e.writable then Outcome.contentReplaced p else Outcome.writeFailed p)
    else Outcome.readFailed p
  | none => Outcome.readFailed p

/-- What pass 1 does to a single entry, given the list `ps` of grep-listed
paths: the content of a listed, readable, writable file is rewritten and
everything else is untouched. -/
def pass1Upd (rep : List Char) (ps : List (List Char)) (e : FsEntry) : FsEntry :=
  if e.path ∈ ps ∧ e.readable = true ∧ e.writable = true then
    { e with content := listReplace placeholder rep e.content }
  else e

theorem pass1UpdPath (rep : List Char) (ps : List (List Char)) (e : FsEntry) :
    (pass1Upd rep ps e).path = e.path := by
  unfold pass1Upd; split <;> rfl

theorem pathsUnique {fs : FS} (hN : (fs.map FsEntry.path).Nodup)
    {x y : FsEntry} (hx : x ∈ fs) (hy : y ∈ fs) (hxy : x.path = y.path) : x = y :=
  List.inj_on_of_nodup_map hN hx hy hxy

theorem findUnique {fs : FS} (hN : (fs.map FsEntry.path).Nodup)
    {e : FsEntry} (he : e ∈ fs) :
    fs.find? (fun x => decide (x.path = e.path)) = some e := by
  induction fs with
  | nil => cases he
  | cons h t ih =>
    by_cases hp : h.path = e.path
    · rw [List.find?_cons_of_pos _ (by simp [hp])]
      rw [pathsUnique hN (List.mem_cons_self h t) he hp]
    · rw [List.find?_cons_of_neg _ (by simp [hp])]
      have hN' : (t.map FsEntry.path).Nodup := by
        rw [List.map_cons] at hN
        exact (List.nodup_cons.mp hN).2
      rcases List.mem_cons.mp he with rfl | he'
      · exact absurd rfl hp
      · exact ih hN' he'

theorem pass1MapNoop (rep : List Char) {fs : FS}
    (hN : (fs.map FsEntry.path).Nodup) {e : FsEntry} (he : e ∈ fs)
    (hrw : ¬ (e.readable = true ∧ e.writable = true)) :
    fs.map (pass1Upd rep [e.path]) = fs := by
  have hid : ∀ x ∈ fs, pass1Upd rep [e.path] x = x := by
    intro x hx
    unfold pass1Upd
    rw [if_neg]
    intro hc
    have hxe : x = e := pathsUnique hN hx he (List.mem_singleton.mp hc.1)
    exact hrw ⟨hxe ▸ hc.2.1, hxe ▸ hc.2.2⟩
  rw [List.map_congr_left hid, List.map_id']

theorem pass1MapWrite (rep : List Char) {fs : FS}
    (hN : (fs.map FsEntry.path).Nodup) {e : FsEntry} (he : e ∈ fs)
    (hr : e.readable = true) (hw : e.writable = true) :
    setContent fs e.path (listReplace placeholder rep e.content)
      = fs.map (pass1Upd rep [e.path]) := by
  unfold setContent
  apply List.map_congr_left
  intro x hx
  by_cases hxp : x.path = e.path
  · have hxe : x = e := pathsUnique hN hx he hxp
    subst hxe
    rw [if_pos rfl]
    unfold pass1Upd
    rw [if_pos ⟨List.mem_singleton.mpr rfl, hr, hw⟩]
  · rw [if_neg hxp]
    unfold pass1Upd
    rw [if_neg]
    intro hc
    exact hxp (List.mem_singleton.mp hc.1)

/-- One iteration of the content loop, written as a pointwise update of
the tree plus one reported outcome. -/
theorem pass1StepChar (rep : List Char) {fs : FS} (outs : List Outcome)
    (hN : (fs.map FsEntry.path).Nodup) {e : FsEntry} (he : e ∈ fs)
    (hcont : placeholder <:+: e.content) :
    pass1Step rep (fs, outs) e.path
      = (fs.map (pass1Upd rep [e.path]), outs ++ [pass1Outcome fs e.path]) := by
  have hfind : fs.find? (fun x => decide (x.path = e.path)) = some e := findUnique hN he
  simp only [pass1Step, pass1Outcome, hfind]
  cases hr : e.readable with
  | false =>
    simp only [Bool.false_eq_true, if_false]
    refine congrArg (fun t => (t, outs ++ [Outcome.readFailed e.path])) ?_
    exact (pass1MapNoop rep hN he (fun hc => by rw [hr] at hc; cases hc.1)).symm
  | true =>
    simp only [if_true, if_pos hcont]
    cases hw : e.writable with
    | false =>
      simp only [Bool.false_eq_true, if_false]
      refine congrArg (fun t => (t, outs ++ [Outcome.writeFailed e.path])) ?_
      exact (pass1MapNoop rep hN he (fun hc => by rw [hw] at hc; cases hc.2)).symm
    | true =>
      simp only [if_true]
      exact congrArg (fun t => (t, outs ++ [Outcome.contentReplaced e.path]))
        (pass1MapWrite rep hN he hr hw)

/-- The whole content loop, characterized: under distinct paths, folding
over a duplicate-free list of token-containing file paths updates each
listed readable and writable file once and reports one outcome per listed
path, all computed against the initial tree. -/
theorem pass1FoldChar (rep : List Char) :
    ∀ (ps : List (List Char)) (fs : FS) (outs : List Outcome),
      (fs.map FsEntry.path).Nodup → ps.Nodup →
      (∀ p ∈ ps, ∃ e, e ∈ fs ∧ e.path = p ∧ placeholder <:+: e.content) →
      ps.foldl (pass1Step rep) (fs, outs)
        = (fs.map (pass1Upd rep ps), outs ++ ps.map (pass1Outcome fs)) := by
  intro ps
  induction ps with
  | nil =>
    intro fs outs _ _ _
    simp only [List.foldl_nil, List.map_nil, List.append_nil]
    have hid : ∀ x ∈ fs, pass1Upd rep [] x = x := by
      intro x _
      unfold pass1Upd
      rw [if_neg]
      intro hc
      exact List.not_mem_nil _ hc.1
    rw [List.map_congr_left hid, List.map_id']
  | cons p ps ih =>
    intro fs outs hN hpsN hexists
    obtain ⟨e, he, hep, hcont⟩ := hexists p (List.mem_cons_self p ps)
    subst hep
    have hpnotin : e.path ∉ ps := (List.nodup_cons.mp hpsN).1
    have hstep := pass1StepChar rep outs hN he hcont
    have hN1 : ((fs.map (pass1Upd rep [e.path])).map FsEntry.path).Nodup := by
      rw [List.map_map]
      have hcomp : (FsEntry.path ∘ pass1Upd rep [e.path]) = FsEntry.path := by
        funext x
        exact pass1UpdPath rep [e.path] x
      rw [hcomp]
      exact hN
    have hex1 : ∀ q ∈ ps, ∃ x, x ∈ fs.map (pass1Upd rep [e.path])
        ∧ x.path = q ∧ placeholder <:+: x.content := by
      intro q hq
      obtain ⟨x, hx, hxp, hxc⟩ := hexists q (List.mem_cons_of_mem _ hq)
      have hqe : q ≠ e.path := fun hcommon => hpnotin (hcommon ▸ hq)
      have hupd : pass1Upd rep [e.path] x = x := by
        unfold pass1Upd
        rw [if_neg]
        intro hc
        exact hqe (hxp ▸ List.mem_singleton.mp hc.1)
      exact ⟨x, by rw [← hupd]; exact List.mem_map_of_mem _ hx, hxp, hxc⟩
    have ihres := ih (fs.map (pass1Upd rep [e.path]))
      (outs ++ [pass1Outcome fs e.path]) hN1 (List.nodup_cons.mp hpsN).2 hex1
    rw [List.foldl_cons, hstep, ihres]
    have hfs : (fs.map (pass1Upd rep [e.path])).map (pass1Upd rep ps)
        = fs.map (pass1Upd rep (e.path :: ps)) := by
      rw [List.map_map]
      apply List.map_congr_left
      intro x hx
      show pass1Upd rep ps (pass1Upd rep [e.path] x) = pass1Upd rep (e.path :: ps) x
      by_cases hxp : x.path = e.path
      · have hxe : x = e := pathsUnique hN hx he hxp
        subst hxe
        by_cases hrw : x.readable = true ∧ x.writable = true
        · have h1 : pass1Upd rep [x.path] x
              = { x with content := listReplace placeholder rep x.content } := by
            unfold pass1Upd
            rw [if_pos ⟨List.mem_singleton.mpr rfl, hrw.1, hrw.2⟩]
          have h2 : pass1Upd rep ps
              { x with content := listReplace placeholder rep x.content }
              = { x with content := listReplace placeholder rep x.content } := by
            unfold pass1Upd
            rw [if_neg]
            intro hc
            exact hpnotin hc.1
          have h3 : pass1Upd rep (x.path :: ps) x
              = { x with content := listReplace placeholder rep x.content } := by
            unfold pass1Upd
            rw [if_pos ⟨List.mem_cons_self _ _, hrw.1, hrw.2⟩]
          rw [h1, h2, h3]
        · have h1 : pass1Upd rep [x.path] x = x := by
            unfold pass1Upd
            rw [if_neg]
            intro hc
            exact hrw ⟨hc.2.1, hc.2.2⟩
          have h2 : pass1Upd rep ps x = x := by
            unfold pass1Upd
            rw [if_neg]
            intro hc
            exact hpnotin hc.1
          have h3 : pass1Upd rep (x.path :: ps) x = x := by
            unfold pass1Upd
            rw [if_neg]
            intro hc
            exact hrw ⟨hc.2.1, hc.2.2⟩
          rw [h1, h2, h3]
      · have h1 : pass1Upd rep [e.path] x = x := by
          unfold pass1Upd
          rw [if_neg]
          intro hc
          exact hxp (List.mem_singleton.mp hc.1)
        rw [h1]
        unfold pass1Upd
        by_cases hin : x.path ∈ ps
        · by_cases hC : x.readable = true ∧ x.writable = true
          · rw [if_pos ⟨hin, hC.1, hC.2⟩,
              if_pos ⟨List.mem_cons_of_mem _ hin, hC.1, hC.2⟩]
          · rw [if_neg (fun hc => hC ⟨hc.2.1, hc.2.2⟩),
              if_neg (fun hc => hC ⟨hc.2.1, hc.2.2⟩)]
        · rw [if_neg (fun hc => hin hc.1),
            if_neg (fun hc => (List.mem_cons.mp hc.1).elim hxp hin)]
    have houts : ps.map (pass1Outcome (fs.map (pass1Upd rep [e.path])))
        = ps.map (pass1Outcome fs) := by
      apply List.map_congr_left
      intro q hq
      have hqe : q ≠ e.path := fun hcommon => hpnotin (hcommon ▸ hq)
      unfold pass1Outcome
      rw [List.find?_map]
      have hpred : ((fun x => decide (x.path = q)) ∘ pass1Upd rep [e.path])
          = fun x => decide (x.path = q) := by
        funext x
        simp [Function.comp, pass1UpdPath]
      rw [hpred]
      cases hfq : fs.find? (fun x => decide (x.path = q)) with
      | none => rfl
      | some y =>
        have hyq : y.path = q := by
          have := List.find?_some hfq
          simpa using this
        have hyid : pass1Upd rep [e.path] y = y := by
          unfold pass1Upd
          rw [if_neg]
          intro hc
          exact hqe (hyq ▸ List.mem_singleton.mp hc.1)
        simp [hyid]
    rw [hfs, houts]
    simp [List.append_assoc]

theorem grepListNodup (fs : FS) (hN : (fs.map FsEntry.path).Nodup) :
    (grepList fs).Nodup :=
  ((List.filter_sublist fs).map FsEntry.path).nodup hN

theorem grepListExists (fs : FS) :
    ∀ p ∈ grepList fs, ∃ e, e ∈ fs ∧ e.path = p ∧ placeholder <:+: e.content := by
  intro p hp
  unfold grepList at hp
  obtain ⟨e, he, hep⟩ := List.mem_map.mp hp
  have hmem := List.mem_filter.mp he
  exact ⟨e, hmem.1, hep, (of_decide_eq_true hmem.2).2⟩

/-- Pass 1 as a whole: a pointwise content update of the tree together
with one outcome per grep-listed file. -/
theorem pass1RunChar (rep : List Char) (fs : FS)
    (hN : (fs.map FsEntry.path).Nodup) :
    pass1Run rep fs = (fs.map (pass1Upd rep (grepList fs)),
      (grepList fs).map (pass1Outcome fs)) := by
  unfold pass1Run
  rw [pass1FoldChar rep (grepList fs) fs [] hN (grepListNodup fs hN)
    (grepListExists fs)]
  rw [List.nil_append]

/-! ### Claim C8 -/

/-- Claim C8, confirmed.  A file whose content does not contain the token
is not listed by grep, so pass 1 performs no write on it: after the
content pass, the entry found at its path is still the original entry,
byte for byte. -/
theorem spec_c8 (rep : List Char) (fs : FS) (e : FsEntry)
    (hN : (fs.map FsEntry.path).Nodup) (he : e ∈ fs)
    (hc : ¬ placeholder <:+: e.content) :
    (pass1Run rep fs).1.find? (fun x => decide (x.path = e.path)) = some e := by
  rw [pass1RunChar rep fs hN]
  rw [List.find?_map]
  have hpred : ((fun x => decide (x.path = e.path)) ∘ pass1Upd rep (grepList fs))
      = fun x => decide (x.path = e.path) := by
    funext x
    simp [Function.comp, pass1UpdPath]
  rw [hpred, findUnique hN he]
  have hid : pass1Upd rep (grepList fs) e = e := by
    unfold pass1Upd
    rw [if_neg]
    intro hcond
    obtain ⟨x, hx, hxp, hxc⟩ := grepListExists fs e.path hcond.1
    exact hc (pathsUnique hN hx he hxp ▸ hxc)
  simp [hid]

/-- A tree for the C8 witness: one token-free file next to one
token-containing file. -/
def c8Tree : FS :=
  [{ path := "acme/keep.txt".data, content := "hello world".data },
   { path := "acme/project_name.txt".data, content := "project_name".data }]

/-- Witness for C8: the token-free file `acme/keep.txt` is untouched. -/
theorem spec_c8_witness :
    (pass1Run ("acme".data) c8Tree).1.find?
        (fun x => decide (x.path = ("acme/keep.txt".data : List Char)))
      = some { path := "acme/keep.txt".data, content := "hello world".data } := by
  have h := spec_c8 ("acme".data) c8Tree
    { path := "acme/keep.txt".data, content := "hello world".data }
    (by decide) (by decide) (by decide)
  exact h

/-! ### Claim C3 -/

/-- Claim C3, confirmed.  `update_project_names` always returns `Ok` — a
file that cannot be read, a failing write or a failing rename never aborts
the walk — the two passes run to completion over the whole tree, and the
run reports one diagnostic per grep-listed file and one per find-listed
entry. -/
theorem spec_c3 (grepOk findOk : Bool) (rep : List Char) (fs : FS)
    (hN : (fs.map FsEntry.path).Nodup) :
    (update_project_names grepOk findOk rep fs).isOk = true ∧
    update_project_names true true rep fs = .ok (substituteRun rep fs) ∧
    (substituteRun rep fs).2.length
      = (grepList fs).length + (findList (pass1Run rep fs).1).length := by
  refine ⟨?_, rfl, ?_⟩
  · unfold update_project_names
    cases grepOk <;> cases findOk <;> rfl
  · unfold substituteRun pass2Run
    rw [pass2FoldOutsLen]
    rw [pass1RunChar rep fs hN]
    simp [List.length_map]

/-- A tree exercising every per-item failure: a token-containing file that
cannot be decoded as text, a token-containing read-only file, a cleanly
renamable file, and a rename collision. -/
def c3Tree : FS :=
  [{ path := "acme/bin.dat".data, content := "project_name".data, readable := false },
   { path := "acme/ro.txt".data, content := "project_name x".data, writable := false },
   { path := "acme/project_name.txt".data, content := "ok".data },
   { path := "acme/project_name_c.txt".data },
   { path := "acme/acme_c.txt".data }]

/-- Witness for C3: on `c3Tree` the run stays `Ok` and reports exactly one
outcome per listed item (two content diagnostics, two rename diagnostics,
two of the four being failures). -/
theorem spec_c3_witness :
    (update_project_names true true ("acme".data) c3Tree).isOk = true ∧
    update_project_names true true ("acme".data) c3Tree
      = .ok (substituteRun ("acme".data) c3Tree) ∧
    (substituteRun ("acme".data) c3Tree).2.length
      = (grepList c3Tree).length + (findList (pass1Run ("acme".data) c3Tree).1).length :=
  spec_c3 true true ("acme".data) c3Tree (by decide)

/-! ### Claim C2 -/

/-- A materialized tree where a directory whose name contains the token
holds a file whose name also contains the token; `find` reports both, the
ancestor first, before any rename happens. -/
def c2Tree : FS :=
  [{ path := "acme/project_name_d".data, isDir := true },
   { path := "acme/project_name_d/project_name.txt".data, content := "hello".data }]

/-- Claim C2, failing behaviour.  Pass 2 collects `find`'s output before
renaming anything (src/cli.rs:293-298); after the directory
`acme/project_name_d` is renamed to `acme/acme_d`, the recorded path of
its descendant `acme/project_name_d/project_name.txt` is stale, so its
`fs::rename` fails and the file stays at `acme/acme_d/project_name.txt`:
its name still contains the token and no entry ever appears at the
substituted path `acme/acme_d/acme.txt` that the claim requires. -/
theorem spec_c2_bug :
    (substituteRun ("acme".data) c2Tree).1
      = [{ path := "acme/acme_d".data, isDir := true },
         { path := "acme/acme_d/project_name.txt".data, content := "hello".data }] ∧
    pathExists (substituteRun ("acme".data) c2Tree).1
      ("acme/acme_d/acme.txt".data) = false ∧
    (substituteRun ("acme".data) c2Tree).2
      = [Outcome.renamed ("acme/project_name_d".data) ("acme/acme_d".data),
         Outcome.renameFailed ("acme/project_name_d/project_name.txt".data)] := by
  decide

/-! ### Characterization of pass 2 -/

theorem midOfFront {α : Type} {t u v : List α} (h₁ : t <:+: u) (h₂ : u <+: v) :
    t <:+: v := by
  obtain ⟨l, r, hl⟩ := h₁
  obtain ⟨w, hw⟩ := h₂
  exact ⟨l, r ++ w, by rw [← hw, ← hl]; simp [List.append_assoc]⟩

theorem backOfBase : ∀ p : List Char, baseName p <:+ p := by
  intro p
  induction p with
  | nil => exact List.suffix_rfl
  | cons c cs ih =>
    simp only [baseName]
    split
    · exact backOfTail ih
    · exact List.suffix_rfl

theorem pathExistsTrue {fs : FS} {p : List Char} (e : FsEntry) (he : e ∈ fs)
    (hep : e.path = p) : pathExists fs p = true := by
  unfold pathExists
  rw [List.any_eq_true]
  exact ⟨e, he, by simp [hep]⟩

theorem pathExistsFalse {fs : FS} {p : List Char} (h : ∀ e ∈ fs, p ≠ e.path) :
    pathExists fs p = false := by
  rw [Bool.eq_false_iff]
  intro hc
  rw [pathExists, List.any_eq_true] at hc
  obtain ⟨e, he, hd⟩ := hc
  exact h e he (of_decide_eq_true hd).symm

theorem findListNodup (fs : FS) (hN : (fs.map FsEntry.path).Nodup) :
    (findList fs).Nodup :=
  ((List.filter_sublist fs).map FsEntry.path).nodup hN

theorem findListExists (fs : FS) :
    ∀ m ∈ findList fs, ∃ e, e ∈ fs ∧ e.path = m ∧ placeholder <:+: baseName e.path := by
  intro m hm
  unfold findList at hm
  obtain ⟨e, he, hem⟩ := List.mem_map.mp hm
  have hmem := List.mem_filter.mp he
  exact ⟨e, hmem.1, hem, of_decide_eq_true hmem.2⟩

theorem memFindList {fs : FS} {e : FsEntry} (he : e ∈ fs)
    (hb : placeholder <:+: baseName e.path) : e.path ∈ findList fs :=
  List.mem_map_of_mem _ (List.mem_filter.mpr ⟨he, decide_eq_true hb⟩)

theorem memGrepList {fs : FS} {e : FsEntry} (he : e ∈ fs)
    (hd : e.isDir = false) (hc : placeholder <:+: e.content) :
    e.path ∈ grepList fs :=
  List.mem_map_of_mem _ (List.mem_filter.mpr ⟨he, decide_eq_true ⟨hd, hc⟩⟩)

/-- The rename loop, characterized: when the listed matches are pairwise
distinct leaf entries of the tree with fresh pairwise-distinct target
paths, every rename succeeds, and the loop amounts to substituting the
token in the path of each listed entry. -/
theorem pass2FoldChar (rep : List Char) (hof : OverlapFree placeholder rep) :
    ∀ (ms : List (List Char)) (fs : FS) (outs : List Outcome),
      (fs.map FsEntry.path).Nodup →
      (∀ m ∈ ms, ∃ e, e ∈ fs ∧ e.path = m ∧ placeholder <:+: baseName e.path) →
      (∀ m ∈ ms, ∀ e ∈ fs, ¬ (m ++ ['/']) <+: e.path) →
      (∀ m ∈ ms, ∀ e ∈ fs, listReplace placeholder rep m ≠ e.path) →
      ((ms.map (listReplace placeholder rep)).Nodup) →
      ms.Nodup →
      ms.foldl (pass2Step rep) (fs, outs)
        = (fs.map (fun e => if e.path ∈ ms then
              { e with path := listReplace placeholder rep e.path } else e),
           outs ++ ms.map (fun m =>
              Outcome.renamed m (listReplace placeholder rep m))) := by
  intro ms
  induction ms with
  | nil =>
    intro fs outs _ _ _ _ _ _
    simp only [List.foldl_nil, List.map_nil, List.append_nil]
    have hid : ∀ x ∈ fs, (if x.path ∈ ([] : List (List Char)) then
        { x with path := listReplace placeholder rep x.path } else x) = x := by
      intro x _
      rw [if_neg (List.not_mem_nil x.path)]
    rw [List.map_congr_left hid, List.map_id']
  | cons m ms ih =>
    intro fs outs hN hex hleaf hfresh hmapN hmsN
    obtain ⟨e, he, hep, hbase⟩ := hex m (List.mem_cons_self m ms)
    have htokm : placeholder <:+: m := hep ▸ midOfBack hbase (backOfBase e.path)
    have hnewFree : ¬ placeholder <:+: listReplace placeholder rep m :=
      listReplaceNoMid placeholder rep placeholderNe hof m
    have htokms : ∀ q ∈ ms, placeholder <:+: q := by
      intro q hq
      obtain ⟨e', _, hep', hb'⟩ := hex q (List.mem_cons_of_mem _ hq)
      exact hep' ▸ midOfBack hb' (backOfBase e'.path)
    have hmnotin : m ∉ ms := (List.nodup_cons.mp hmsN).1
    have hstep : pass2Step rep (fs, outs) m
        = (fs.map (moveEntry m (listReplace placeholder rep m)),
           outs ++ [Outcome.renamed m (listReplace placeholder rep m)]) := by
      simp only [pass2Step]
      rw [if_pos ⟨pathExistsTrue e he hep, pathExistsFalse (fun x hx => hfresh m
        (List.mem_cons_self m ms) x hx)⟩]
    have hmv : ∀ x ∈ fs, moveEntry m (listReplace placeholder rep m) x
        = if x.path = m then { x with path := listReplace placeholder rep m }
          else x := by
      intro x hx
      by_cases hxm : x.path = m
      · simp [moveEntry, movePath, hxm]
      · have hnd : ¬ (m ++ ['/']) <+: x.path :=
          hleaf m (List.mem_cons_self m ms) x hx
        simp [moveEntry, movePath, hxm, hnd]
    have hfs1 : fs.map (moveEntry m (listReplace placeholder rep m))
        = fs.map (fun x => if x.path = m then
            { x with path := listReplace placeholder rep m } else x) :=
      List.map_congr_left hmv
    have hN' : ((fs.map (fun x => if x.path = m then
        { x with path := listReplace placeholder rep m } else x)).map
          FsEntry.path).Nodup := by
      rw [List.map_map]
      have hcomp : (FsEntry.path ∘ (fun x => if x.path = m then
          { x with path := listReplace placeholder rep m } else x))
          = fun x => if x.path = m then listReplace placeholder rep m
            else x.path := by
        funext x
        by_cases hxm : x.path = m <;> simp [Function.comp, hxm]
      rw [hcomp]
      show List.Pairwise (fun a b : List Char => a ≠ b)
        (fs.map (fun x => if x.path = m then listReplace placeholder rep m
          else x.path))
      rw [List.pairwise_map]
      have hNp : List.Pairwise (fun a b : FsEntry => a.path ≠ b.path) fs :=
        List.pairwise_map.mp hN
      apply List.Pairwise.imp_of_mem ?_ hNp
      intro a b ha hb hab
      by_cases ham : a.path = m <;> by_cases hbm : b.path = m
      · exact absurd (ham.trans hbm.symm) hab
      · simp only [if_pos ham, if_neg hbm]
        exact hfresh m (List.mem_cons_self m ms) b hb
      · simp only [if_neg ham, if_pos hbm]
        exact fun hc => hfresh m (List.mem_cons_self m ms) a ha hc.symm
      · simp only [if_neg ham, if_neg hbm]
        exact hab
    have hmemF : ∀ x ∈ fs, x.path ≠ m → (fun x => if x.path = m then
        { x with path := listReplace placeholder rep m } else x) x = x := by
      intro x _ hxm
      simp only [if_neg hxm]
    have hex' : ∀ m' ∈ ms, ∃ x, x ∈ fs.map (fun x => if x.path = m then
        { x with path := listReplace placeholder rep m } else x)
          ∧ x.path = m' ∧ placeholder <:+: baseName x.path := by
      intro m' hm'
      obtain ⟨e', he', hep', hb'⟩ := hex m' (List.mem_cons_of_mem _ hm')
      have hm'm : e'.path ≠ m := by
        rw [hep']
        intro hc
        exact hmnotin (hc ▸ hm')
      refine ⟨e', ?_, hep', hb'⟩
      rw [← hmemF e' he' hm'm]
      exact List.mem_map_of_mem _ he'
    have hleaf' : ∀ m' ∈ ms, ∀ x' ∈ fs.map (fun x => if x.path = m then
        { x with path := listReplace placeholder rep m } else x),
          ¬ (m' ++ ['/']) <+: x'.path := by
      intro m' hm' x' hx'
      obtain ⟨x, hx, hxeq⟩ := List.mem_map.mp hx'
      subst hxeq
      by_cases hxm : x.path = m
      · simp only [if_pos hxm]
        intro hpre
        have hpre' : (m' ++ ['/']) <+: listReplace placeholder rep m := hpre
        obtain ⟨w, hw⟩ := hpre'
        have hfront : m' <+: listReplace placeholder rep m :=
          ⟨'/' :: w, by rw [← hw]; simp⟩
        exact hnewFree (midOfFront (htokms m' hm') hfront)
      · simp only [if_neg hxm]
        exact hleaf m' (List.mem_cons_of_mem _ hm') x hx
    have hfresh' : ∀ m' ∈ ms, ∀ x' ∈ fs.map (fun x => if x.path = m then
        { x with path := listReplace placeholder rep m } else x),
          listReplace placeholder rep m' ≠ x'.path := by
      intro m' hm' x' hx'
      obtain ⟨x, hx, hxeq⟩ := List.mem_map.mp hx'
      subst hxeq
      by_cases hxm : x.path = m
      · simp only [if_pos hxm]
        intro hc
        have hc' : listReplace placeholder rep m'
            = listReplace placeholder rep m := hc
        apply (List.nodup_cons.mp hmapN).1
        rw [← hc']
        exact List.mem_map_of_mem (listReplace placeholder rep) hm'
      · simp only [if_neg hxm]
        exact hfresh m' (List.mem_cons_of_mem _ hm') x hx
    have ihres := ih (fs.map (fun x => if x.path = m then
        { x with path := listReplace placeholder rep m } else x))
      (outs ++ [Outcome.renamed m (listReplace placeholder rep m)])
      hN' hex' hleaf' hfresh' (List.nodup_cons.mp hmapN).2 (List.nodup_cons.mp hmsN).2
    rw [List.foldl_cons, hstep, hfs1, ihres]
    have hfspart : (fs.map (fun x => if x.path = m then
        { x with path := listReplace placeholder rep m } else x)).map
          (fun e => if e.path ∈ ms then
            { e with path := listReplace placeholder rep e.path } else e)
        = fs.map (fun e => if e.path ∈ m :: ms then
            { e with path := listReplace placeholder rep e.path } else e) := by
      rw [List.map_map]
      apply List.map_congr_left
      intro x _
      by_cases hxm : x.path = m
      · have hnotms : listReplace placeholder rep m ∉ ms := by
          intro hc
          exact hnewFree (htokms _ hc)
        simp only [Function.comp, if_pos hxm]
        rw [if_neg, if_pos (by rw [hxm]; exact List.mem_cons_self m ms)]
        · rw [hxm]
        · exact hnotms
      · simp only [Function.comp, if_neg hxm]
        by_cases hin : x.path ∈ ms
        · rw [if_pos hin, if_pos (List.mem_cons_of_mem _ hin)]
        · rw [if_neg hin, if_neg (fun hc => (List.mem_cons.mp hc).elim hxm hin)]
    rw [hfspart]
    simp [List.append_assoc]

/-- Pass 2 as a whole, on a tree whose token-named entries are leaves with
fresh pairwise-distinct substituted paths: every such entry is renamed to
its substituted path. -/
theorem pass2RunChar (rep : List Char) (hof : OverlapFree placeholder rep)
    (fs : FS) (outs : List Outcome)
    (hN : (fs.map FsEntry.path).Nodup)
    (hLeaf : ∀ e ∈ fs, placeholder <:+: baseName e.path →
        ∀ e' ∈ fs, ¬ (e.path ++ ['/']) <+: e'.path)
    (hFresh : ∀ e ∈ fs, placeholder <:+: baseName e.path →
        ∀ e' ∈ fs, listReplace placeholder rep e.path ≠ e'.path)
    (hRepN : (fs.map (fun e => listReplace placeholder rep e.path)).Nodup) :
    pass2Run rep (fs, outs)
      = (fs.map (fun e => if e.path ∈ findList fs then
            { e with path := listReplace placeholder rep e.path } else e),
         outs ++ (findList fs).map (fun m =>
            Outcome.renamed m (listReplace placeholder rep m))) := by
  unfold pass2Run
  refine pass2FoldChar rep hof (findList fs) fs outs hN (findListExists fs)
    ?_ ?_ ?_ (findListNodup fs hN)
  · intro m hm e' he'
    obtain ⟨e, he, hep, hb⟩ := findListExists fs m hm
    exact hep ▸ hLeaf e he hb e' he'
  · intro m hm e' he'
    obtain ⟨e, he, hep, hb⟩ := findListExists fs m hm
    exact hep ▸ hFresh e he hb e' he'
  · unfold findList
    rw [List.map_map]
    have hcomp : (listReplace placeholder rep ∘ FsEntry.path)
        = fun e : FsEntry => listReplace placeholder rep e.path := rfl
    rw [hcomp]
    exact ((List.filter_sublist fs).map
      (fun e : FsEntry => listReplace placeholder rep e.path)).nodup hRepN

/-- The find listing only depends on the paths of the entries. -/
theorem findListMapStable (fs : FS) (u : FsEntry → FsEntry)
    (hu : ∀ x, (u x).path = x.path) : findList (fs.map u) = findList fs := by
  unfold findList
  rw [List.filter_map, List.map_map]
  have h1 : ((fun e => decide (placeholder <:+: baseName e.path)) ∘ u)
      = fun e => decide (placeholder <:+: baseName e.path) := by
    funext x
    simp [Function.comp, hu]
  have h2 : (FsEntry.path ∘ u) = FsEntry.path := by
    funext x
    exact hu x
  rw [h1, h2]

/-! ### Claim C10 -/

/-- Claim C10, confirmed.  When `grep` cannot be invoked
(src/cli.rs:288-290), the whole content pass is skipped — no file content
changes — yet `update_project_names` still returns `Ok` and the rename
pass (and hence, in `run`, the finalizers behind the `?`) still proceed. -/
theorem spec_c10 (rep : List Char) (fs : FS) :
    update_project_names false true rep fs = .ok (pass2Run rep (fs, [])) ∧
    ((pass2Run rep (fs, [])).1).map FsEntry.content = fs.map FsEntry.content ∧
    (update_project_names false true rep fs).isOk = true := by
  exact ⟨rfl, pass2FoldContents rep (findList fs) (fs, []), rfl⟩

/-! ### Claim C9 -/

/-- Claim C9, counterexample.  The claim asserts that running the full
substitution twice is idempotent, with the second content pass finding
zero token-containing files.  With project name `"the_project_name"`
— a replacement that itself contains the token — the first run rewrites
`"project_name"` into `"the_project_name"`, so the second run's grep still
finds the file and rewrites it again: the tree is changed by the second
run. -/
theorem spec_c9_cex :
    grepList (substituteRun ("the_project_name".data)
        [{ path := "acme/flake.nix".data, content := "project_name".data }]).1
      = ["acme/flake.nix".data] ∧
    (substituteRun ("the_project_name".data)
        ((substituteRun ("the_project_name".data)
          [{ path := "acme/flake.nix".data, content := "project_name".data }]).1)).1
      ≠ (substituteRun ("the_project_name".data)
          [{ path := "acme/flake.nix".data, content := "project_name".data }]).1 := by
  decide

/-- Claim C9, amended.  Running the substitution twice with the same token
and replacement is idempotent provided the first run is clean: the
replacement cannot re-introduce the token (`OverlapFree`), every
token-containing file is readable and writable, every token-named entry is
a leaf whose substituted path is fresh and distinct from the other
substituted paths.  Then the second run's content pass finds zero files
containing the token, its rename pass finds zero entries whose name
contains the token, and the second run returns the tree unchanged with no
outcomes. -/
theorem spec_c9 (rep : List Char) (fs : FS)
    (hof : OverlapFree placeholder rep)
    (hN : (fs.map FsEntry.path).Nodup)
    (hRW : ∀ e ∈ fs, placeholder <:+: e.content →
        e.readable = true ∧ e.writable = true)
    (hLeaf : ∀ e ∈ fs, placeholder <:+: baseName e.path →
        ∀ e' ∈ fs, ¬ (e.path ++ ['/']) <+: e'.path)
    (hFresh : ∀ e ∈ fs, placeholder <:+: baseName e.path →
        ∀ e' ∈ fs, listReplace placeholder rep e.path ≠ e'.path)
    (hRepN : (fs.map (fun e => listReplace placeholder rep e.path)).Nodup) :
    grepList (substituteRun rep fs).1 = [] ∧
    findList (substituteRun rep fs).1 = [] ∧
    substituteRun rep ((substituteRun rep fs).1) = ((substituteRun rep fs).1, []) := by
  have hpaths1 : (FsEntry.path ∘ pass1Upd rep (grepList fs)) = FsEntry.path := by
    funext x
    exact pass1UpdPath rep (grepList fs) x
  have hN1 : ((fs.map (pass1Upd rep (grepList fs))).map FsEntry.path).Nodup := by
    rw [List.map_map, hpaths1]
    exact hN
  have hContFree : ∀ y ∈ fs.map (pass1Upd rep (grepList fs)),
      y.isDir = false → ¬ placeholder <:+: y.content := by
    intro y hy hyd
    obtain ⟨x, hx, hxy⟩ := List.mem_map.mp hy
    by_cases hcond : x.path ∈ grepList fs ∧ x.readable = true ∧ x.writable = true
    · have hupd : pass1Upd rep (grepList fs) x
          = { x with content := listReplace placeholder rep x.content } := by
        unfold pass1Upd
        rw [if_pos hcond]
      rw [← hxy, hupd]
      exact listReplaceNoMid placeholder rep placeholderNe hof x.content
    · have hid : pass1Upd rep (grepList fs) x = x := by
        unfold pass1Upd
        rw [if_neg hcond]
      rw [← hxy, hid]
      rw [← hxy, hid] at hyd
      intro hc
      exact hcond ⟨memGrepList hx hyd hc, hRW x hx hc⟩
  have hLeaf1 : ∀ y ∈ fs.map (pass1Upd rep (grepList fs)),
      placeholder <:+: baseName y.path →
      ∀ y' ∈ fs.map (pass1Upd rep (grepList fs)),
        ¬ (y.path ++ ['/']) <+: y'.path := by
    intro y hy hb y' hy'
    obtain ⟨x, hx, hxy⟩ := List.mem_map.mp hy
    obtain ⟨x', hx', hxy'⟩ := List.mem_map.mp hy'
    rw [← hxy] at hb ⊢
    rw [← hxy']
    rw [pass1UpdPath] at hb ⊢
    rw [pass1UpdPath]
    exact hLeaf x hx hb x' hx'
  have hFresh1 : ∀ y ∈ fs.map (pass1Upd rep (grepList fs)),
      placeholder <:+: baseName y.path →
      ∀ y' ∈ fs.map (pass1Upd rep (grepList fs)),
        listReplace placeholder rep y.path ≠ y'.path := by
    intro y hy hb y' hy'
    obtain ⟨x, hx, hxy⟩ := List.mem_map.mp hy
    obtain ⟨x', hx', hxy'⟩ := List.mem_map.mp hy'
    rw [← hxy] at hb ⊢
    rw [← hxy']
    rw [pass1UpdPath] at hb ⊢
    rw [pass1UpdPath]
    exact hFresh x hx hb x' hx'
  have hRepN1 : ((fs.map (pass1Upd rep (grepList fs))).map
      (fun e => listReplace placeholder rep e.path)).Nodup := by
    rw [List.map_map]
    have hcomp : ((fun e : FsEntry => listReplace placeholder rep e.path)
        ∘ pass1Upd rep (grepList fs))
        = fun e => listReplace placeholder rep e.path := by
      funext x
      simp [Function.comp, pass1UpdPath]
    rw [hcomp]
    exact hRepN
  have hrun : substituteRun rep fs
      = ((fs.map (pass1Upd rep (grepList fs))).map
           (fun e => if e.path ∈ findList (fs.map (pass1Upd rep (grepList fs))) then
             { e with path := listReplace placeholder rep e.path } else e),
         (grepList fs).map (pass1Outcome fs)
           ++ (findList (fs.map (pass1Upd rep (grepList fs)))).map
              (fun m => Outcome.renamed m (listReplace placeholder rep m))) := by
    unfold substituteRun
    rw [pass1RunChar rep fs hN]
    exact pass2RunChar rep hof (fs.map (pass1Upd rep (grepList fs)))
      ((grepList fs).map (pass1Outcome fs)) hN1 hLeaf1 hFresh1 hRepN1
  have hga : grepList (substituteRun rep fs).1 = [] := by
    rw [hrun]
    dsimp only
    apply List.map_eq_nil_iff.mpr
    rw [List.filter_eq_nil_iff]
    intro y2 hy2
    obtain ⟨y1, hy1, hy12⟩ := List.mem_map.mp hy2
    intro hq
    rw [← hy12] at hq
    by_cases hm : y1.path ∈ findList (fs.map (pass1Upd rep (grepList fs)))
    · simp only [if_pos hm] at hq
      have hq' := of_decide_eq_true hq
      exact hContFree y1 hy1 hq'.1 hq'.2
    · simp only [if_neg hm] at hq
      have hq' := of_decide_eq_true hq
      exact hContFree y1 hy1 hq'.1 hq'.2
  have hfb : findList (substituteRun rep fs).1 = [] := by
    rw [hrun]
    dsimp only
    apply List.map_eq_nil_iff.mpr
    rw [List.filter_eq_nil_iff]
    intro y2 hy2
    obtain ⟨y1, hy1, hy12⟩ := List.mem_map.mp hy2
    intro hq
    rw [← hy12] at hq
    by_cases hm : y1.path ∈ findList (fs.map (pass1Upd rep (grepList fs)))
    · simp only [if_pos hm] at hq
      have hq' := of_decide_eq_true hq
      have hmid : placeholder <:+: listReplace placeholder rep y1.path :=
        midOfBack hq' (backOfBase _)
      exact listReplaceNoMid placeholder rep placeholderNe hof y1.path hmid
    · simp only [if_neg hm] at hq
      have hq' := of_decide_eq_true hq
      exact hm (memFindList hy1 hq')
  refine ⟨hga, hfb, ?_⟩
  generalize hgen : (substituteRun rep fs).1 = Y at hga hfb
  show substituteRun rep Y = (Y, [])
  unfold substituteRun pass1Run pass2Run
  rw [hga, List.foldl_nil]
  dsimp only
  rw [hfb, List.foldl_nil]

/-- The spec's own scenario for the C9 witness: `src/project_name.txt`
containing `Hello, project_name!`, replacement `"acme"`. -/
def c9Tree : FS :=
  [{ path := "acme/src".data, isDir := true },
   { path := "acme/src/project_name.txt".data,
     content := "Hello, project_name!".data }]

/-- Witness for C9: on `c9Tree` with replacement `"acme"` the second run
finds nothing to do and returns the tree unchanged. -/
theorem spec_c9_witness :
    grepList (substituteRun ("acme".data) c9Tree).1 = [] ∧
    findList (substituteRun ("acme".data) c9Tree).1 = [] ∧
    substituteRun ("acme".data) ((substituteRun ("acme".data) c9Tree).1)
      = ((substituteRun ("acme".data) c9Tree).1, []) :=
  spec_c9 ("acme".data) c9Tree (by decide) (by decide) (by decide) (by decide)
    (by decide) (by decide)

end Getflake
